import Mathlib

/-!
Shallow embedding of `src/particle.rs` (ggez-goodies particle system).

Floating-point values (`f64`, `f32`) are embedded as exact rationals `ℚ`;
the one place the code uses `f64::INFINITY` (the default `max_life`) is
embedded as `WithTop ℚ`, whose `⊤` plays the role of `+∞` in comparisons.
2-D points and vectors (`na::Point2<f64>`, `na::Vector2<f64>`) are pairs
`ℚ × ℚ` with componentwise addition and scalar multiplication, matching
nalgebra's exact-arithmetic counterpart.
Randomness is made explicit: a function that calls the process RNG takes
the drawn sample as an extra argument, with the sample's range recorded as
a hypothesis where a theorem needs it.
-/

/-- `type Point2 = na::Point2<f64>` -/
abbrev Point2 : Type := ℚ × ℚ

/-- `type Vector2 = na::Vector2<f64>` -/
abbrev Vector2 : Type := ℚ × ℚ

/-- `struct Particle { pos, vel, age }` -/
structure Particle where
  pos : Point2
  vel : Vector2
  age : ℚ
deriving DecidableEq, Repr

/-- `Particle::new(pos, vel)` — age is always initialized to `0.0`. -/
def Particle.new (pos : Point2) (vel : Vector2) : Particle :=
  { pos := pos, vel := vel, age := 0 }

/-- The per-particle body of the `for` loop in `ParticleSystem::update`:
`p.vel += self.acceleration * dt; p.pos += p.vel * dt; p.age += dt;`
(the position increment uses the already-updated velocity). -/
def Particle.step (acceleration : Vector2) (dt : ℚ) (p : Particle) : Particle :=
  let vel := p.vel + dt • acceleration
  let pos := p.pos + dt • vel
  let age := p.age + dt
  { pos := pos, vel := vel, age := age }

/-- `struct Transition<T> { breakpoints: Vec<(f64, T)> }` -/
structure Transition (T : Type) where
  breakpoints : List (ℚ × T)
deriving DecidableEq, Repr

/-- `Transition::add` — the body in the source is empty (`fn add(&mut self, t: f64, val: T) {}`),
so the state is returned unchanged. -/
def Transition.add {T : Type} (tr : Transition T) (_t : ℚ) (_val : T) : Transition T :=
  tr

/-- `enum StartParam<T> { Fixed(T), UniformRange(T, T) }` -/
inductive StartParam (T : Type) where
  | Fixed (v : T)
  | UniformRange (low high : T)
deriving DecidableEq, Repr

/-- `impl StartParam<f64> { fn get_value(self) -> f64 }`.  The `UniformRange`
arm routes through the `Sample<f64>` impl, which draws `rand::Open01<f64>`
(a sample in the open interval `(0,1)`) and returns it, ignoring `low` and
`high`; `sample` is that drawn value, passed explicitly. -/
def StartParam.get_value_f64 : StartParam ℚ → ℚ → ℚ
  | StartParam.Fixed x, _ => x
  | StartParam.UniformRange _ _, sample => sample

/-- `impl StartParam<f32> { fn get_value(self) -> f32 }`.  The `UniformRange`
arm calls `rand::thread_rng().gen()`, a uniform sample in `[0,1)`, ignoring
`low` and `high`; `sample` is that drawn value, passed explicitly. -/
def StartParam.get_value_f32 : StartParam ℚ → ℚ → ℚ
  | StartParam.Fixed x, _ => x
  | StartParam.UniformRange _ _, sample => sample

/-- `struct ParticleSystem { particles, max_particles, max_life, acceleration }` -/
structure ParticleSystem where
  particles : List Particle
  max_particles : Nat
  max_life : WithTop ℚ
  acceleration : Vector2
deriving DecidableEq, Repr

/-- `ParticleSystem::new()` -/
def ParticleSystem.new : ParticleSystem :=
  { particles := []
    max_particles := 0
    max_life := ⊤
    acceleration := ((0 : ℚ), (0 : ℚ)) }

/-- `ParticleSystem::add_particle`: pushes `p` iff `particles.len() <= max_particles`. -/
def ParticleSystem.add_particle (s : ParticleSystem) (p : Particle) : ParticleSystem :=
  if s.particles.length ≤ s.max_particles then
    { s with particles := s.particles ++ [p] }
  else
    s

/-- `ParticleSystem::emit`: hardcodes `pos = (0,0)`, `vel = (10,10)` and calls
`add_particle` on the freshly constructed particle. -/
def ParticleSystem.emit (s : ParticleSystem) : ParticleSystem :=
  let pos : Point2 := ((0 : ℚ), (0 : ℚ))
  let vec : Vector2 := ((10 : ℚ), (10 : ℚ))
  let newparticle := Particle.new pos vec
  s.add_particle newparticle

/-- `ParticleSystem::update(dt)`: integrates every particle in place, then
`retain`s only the particles with `age < max_life`.  No check on `dt`. -/
def ParticleSystem.update (s : ParticleSystem) (dt : ℚ) : ParticleSystem :=
  let stepped := s.particles.map (Particle.step s.acceleration dt)
  { s with particles := stepped.filter (fun p => decide ((p.age : WithTop ℚ) < s.max_life)) }

/-- `struct ParticleSystemBuilder { system: ParticleSystem }` -/
structure ParticleSystemBuilder where
  system : ParticleSystem

/-- `ParticleSystemBuilder::new()` wraps `ParticleSystem::new()`. -/
def ParticleSystemBuilder.new : ParticleSystemBuilder :=
  { system := ParticleSystem.new }

/-- `ParticleSystemBuilder::build` -/
def ParticleSystemBuilder.build (b : ParticleSystemBuilder) : ParticleSystem :=
  b.system

/-- `ParticleSystemBuilder::count` (the `reserve_exact` call only affects
storage capacity, not observable state). -/
def ParticleSystemBuilder.count (b : ParticleSystemBuilder) (count : Nat) : ParticleSystemBuilder :=
  { b with system := { b.system with max_particles := count } }

/-- `ParticleSystemBuilder::lifetime` -/
def ParticleSystemBuilder.lifetime (b : ParticleSystemBuilder) (time : WithTop ℚ) : ParticleSystemBuilder :=
  { b with system := { b.system with max_life := time } }

/-- `ParticleSystemBuilder::acceleration` -/
def ParticleSystemBuilder.acceleration (b : ParticleSystemBuilder) (accel : Vector2) : ParticleSystemBuilder :=
  { b with system := { b.system with acceleration := accel } }

/-- A user-facing operation on a particle system: `emit` or `update(dt)`. -/
inductive SysOp where
  | emit
  | update (dt : ℚ)

/-- Apply one operation. -/
def SysOp.apply (s : ParticleSystem) : SysOp → ParticleSystem
  | SysOp.emit => s.emit
  | SysOp.update dt => s.update dt

/-- Apply a sequence of operations, left to right. -/
def ParticleSystem.run (s : ParticleSystem) (ops : List SysOp) : ParticleSystem :=
  ops.foldl SysOp.apply s

/-- Apply a sequence of `update` calls, left to right. -/
def ParticleSystem.runUpdates (s : ParticleSystem) (dts : List ℚ) : ParticleSystem :=
  dts.foldl ParticleSystem.update s

/-! ## Concrete systems used by witnesses and counterexamples -/

/-- A system whose pool already exceeds its capacity ceiling: one particle,
`max_particles = 0` (reachable from `new` by a single `emit`). -/
def fullSystem : ParticleSystem :=
  { particles := [Particle.new ((0 : ℚ), (0 : ℚ)) ((10 : ℚ), (10 : ℚ))]
    max_particles := 0
    max_life := ⊤
    acceleration := ((0 : ℚ), (0 : ℚ)) }

/-- A system with an unbounded lifetime and a nonempty pool. -/
def infSystem : ParticleSystem :=
  { particles := [Particle.new ((1 : ℚ), (2 : ℚ)) ((3 : ℚ), (4 : ℚ))]
    max_particles := 5
    max_life := ⊤
    acceleration := ((0 : ℚ), (-1 : ℚ)) }

/-! ## Claim theorems -/

/-- C8: `StartParam::Fixed(v)` resolved via `get_value` (both the `f64` and the
`f32` impl) returns exactly `v`, and the result does not depend on the random
sample, so any two resolutions agree. -/
theorem fixed_get_value_deterministic :
    ∀ (v s₁ s₂ : ℚ),
      StartParam.get_value_f64 (StartParam.Fixed v) s₁ = v ∧
      StartParam.get_value_f32 (StartParam.Fixed v) s₁ = v ∧
      StartParam.get_value_f64 (StartParam.Fixed v) s₁ =
        StartParam.get_value_f64 (StartParam.Fixed v) s₂ ∧
      StartParam.get_value_f32 (StartParam.Fixed v) s₁ =
        StartParam.get_value_f32 (StartParam.Fixed v) s₂ := by
  intro v s₁ s₂
  exact ⟨rfl, rfl, rfl, rfl⟩

/-- C10: `emit` takes no caller-supplied data and consults no `StartParam`:
it appends (when admitted) exactly the particle with position `(0,0)`,
velocity `(10,10)` and age `0`, and otherwise leaves the pool unchanged. -/
theorem emit_hardcoded_particle (s : ParticleSystem) :
    (s.emit).particles =
      (if s.particles.length ≤ s.max_particles then
        s.particles ++ [{ pos := ((0 : ℚ), (0 : ℚ)), vel := ((10 : ℚ), (10 : ℚ)), age := 0 }]
      else s.particles) := by
  unfold ParticleSystem.emit ParticleSystem.add_particle Particle.new
  split <;> rfl

/-- C5 (failing-input evaluation): resolving `UniformRange(2.0, 4.0)` with a
random draw of `0.5` returns `0.5` on both the `f32` path (`rng.gen()`) and
the `f64` path (`Open01`), violating the claimed bound `2.0 ≤ v`. -/
theorem uniform_range_ignores_bounds :
    StartParam.get_value_f32 (StartParam.UniformRange 2 4) (1 / 2) = 1 / 2 ∧
    StartParam.get_value_f64 (StartParam.UniformRange 2 4) (1 / 2) = 1 / 2 ∧
    ¬(2 ≤ StartParam.get_value_f32 (StartParam.UniformRange 2 4) (1 / 2)) := by
  refine ⟨rfl, rfl, ?_⟩
  rw [StartParam.get_value_f32]
  norm_num

/-- C4 (failing-input evaluation): `Transition::add` has an empty body, so
adding the breakpoint `(0.5, 5.0)` to an empty transition leaves the
breakpoint sequence empty: the inserted pair is absent afterwards. -/
theorem transition_add_noop_at_half :
    (Transition.add (⟨[]⟩ : Transition ℚ) (1 / 2) 5).breakpoints = [] ∧
    ((1 / 2 : ℚ), (5 : ℚ)) ∉ (Transition.add (⟨[]⟩ : Transition ℚ) (1 / 2) 5).breakpoints := by
  exact ⟨rfl, List.not_mem_nil _⟩

/-- C7: when the admission test fails (`particles.len() > max_particles`),
`emit` is a silent no-op: the whole system state — pool, `max_particles`,
`max_life`, `acceleration` — is returned exactly unchanged. -/
theorem emit_at_capacity_noop (s : ParticleSystem)
    (h : s.max_particles < s.particles.length) : s.emit = s := by
  unfold ParticleSystem.emit ParticleSystem.add_particle
  rw [if_neg (Nat.not_le.mpr h)]

/-- C7 witness: a concrete over-capacity system (one particle, capacity 0)
on which `emit` changes nothing. -/
theorem emit_at_capacity_noop_witness :
    fullSystem.max_particles < fullSystem.particles.length ∧ fullSystem.emit = fullSystem :=
  ⟨by decide, emit_at_capacity_noop fullSystem (by decide)⟩

/-- When `max_life` is unbounded (`⊤`), the retain pass keeps every stepped
particle, since every embedded age is a finite rational. -/
lemma update_particles_of_top (s : ParticleSystem) (dt : ℚ) (h : s.max_life = ⊤) :
    (s.update dt).particles = s.particles.map (Particle.step s.acceleration dt) := by
  simp only [ParticleSystem.update]
  rw [List.filter_eq_self]
  intro a _
  rw [h]
  exact decide_eq_true (WithTop.coe_lt_top a.age)

/-- C9: a freshly constructed system (also the builder's starting state) has
an empty pool, `max_particles = 0`, unbounded `max_life` (`⊤` embeds
`f64::INFINITY`) and zero acceleration; and while `max_life` is still
unbounded, `update(dt)` with `dt ≥ 0` evicts nothing: every stepped particle
(all ages are finite) stays in the pool. -/
theorem new_system_defaults :
    ParticleSystem.new.particles = [] ∧
    ParticleSystem.new.max_particles = 0 ∧
    ParticleSystem.new.max_life = ⊤ ∧
    ParticleSystem.new.acceleration = ((0 : ℚ), (0 : ℚ)) ∧
    ParticleSystemBuilder.new.system = ParticleSystem.new ∧
    ∀ (s : ParticleSystem) (dt : ℚ), s.max_life = ⊤ → 0 ≤ dt →
      (s.update dt).particles = s.particles.map (Particle.step s.acceleration dt) := by
  refine ⟨rfl, rfl, rfl, rfl, rfl, ?_⟩
  intro s dt h _
  exact update_particles_of_top s dt h

/-- C9 witness: on a concrete unbounded-lifetime system with one particle,
`update 1` keeps the (stepped) particle. -/
theorem new_system_defaults_witness :
    (infSystem.update 1).particles = infSystem.particles.map (Particle.step infSystem.acceleration 1) :=
  new_system_defaults.2.2.2.2.2 infSystem 1 rfl (by norm_num)

/-- C2: immediately after `update(dt)`, no particle in the pool has
`age ≥ max_life`; and a stepped particle is in the post-update pool exactly
when its post-increment age is `< max_life` — those are retained and the rest
are removed in the same pass. -/
theorem update_evicts_expired (s : ParticleSystem) (dt : ℚ) :
    (∀ q ∈ (s.update dt).particles, ¬ s.max_life ≤ (q.age : WithTop ℚ)) ∧
    (∀ q, q ∈ (s.update dt).particles ↔
      (q ∈ s.particles.map (Particle.step s.acceleration dt) ∧
        (q.age : WithTop ℚ) < s.max_life)) := by
  constructor
  · intro q hq
    simp only [ParticleSystem.update] at hq
    have h := (List.mem_filter.mp hq).2
    exact not_le.mpr (of_decide_eq_true h)
  · intro q
    simp only [ParticleSystem.update]
    rw [List.mem_filter]
    simp only [decide_eq_true_eq]

/-- C6 (counterexample to the claim as stated): `update(-1.0)` on a concrete
one-particle system is not rejected — it runs the integration with the
negative step, producing a changed pool whose particle has `age = -1`. -/
theorem update_negative_dt_runs :
    (fullSystem.update (-1)).particles =
      [{ pos := ((-10 : ℚ), (-10 : ℚ)), vel := ((10 : ℚ), (10 : ℚ)), age := -1 }] ∧
    (fullSystem.update (-1)).particles ≠ fullSystem.particles := by
  have h : (fullSystem.update (-1)).particles =
      [{ pos := ((-10 : ℚ), (-10 : ℚ)), vel := ((10 : ℚ), (10 : ℚ)), age := -1 }] := by
    rw [update_particles_of_top fullSystem (-1) rfl]
    simp only [fullSystem, Particle.step, Particle.new, List.map_cons, List.map_nil,
      Prod.smul_mk, smul_eq_mul, Prod.mk_add_mk]
    norm_num
  refine ⟨h, ?_⟩
  rw [h]
  simp only [fullSystem, Particle.new, ne_eq, List.cons.injEq, Particle.mk.injEq,
    Prod.mk.injEq, and_true, not_and]
  intro
  norm_num

/-- C6 (amended): `update` performs no validation of `dt`: a negative `dt` is
accepted and the integration runs with it, so any particle whose decreased
age is still below `max_life` stays in the pool with `age` strictly lowered
by the call — time runs backwards rather than the call failing. -/
theorem update_accepts_negative_dt (s : ParticleSystem) (dt : ℚ) (p : Particle)
    (hdt : dt < 0) (hp : p ∈ s.particles)
    (hlife : ((p.age + dt : ℚ) : WithTop ℚ) < s.max_life) :
    Particle.step s.acceleration dt p ∈ (s.update dt).particles ∧
    (Particle.step s.acceleration dt p).age = p.age + dt ∧
    (Particle.step s.acceleration dt p).age < p.age := by
  refine ⟨?_, rfl, ?_⟩
  · simp only [ParticleSystem.update]
    refine List.mem_filter.mpr ⟨List.mem_map_of_mem _ hp, ?_⟩
    exact decide_eq_true hlife
  · show p.age + dt < p.age
    linarith

/-- C6 witness: the amended theorem instantiated at the concrete one-particle
system and `dt = -1`. -/
theorem update_accepts_negative_dt_witness :
    Particle.step fullSystem.acceleration (-1) (Particle.new ((0 : ℚ), (0 : ℚ)) ((10 : ℚ), (10 : ℚ)))
        ∈ (fullSystem.update (-1)).particles ∧
    (Particle.step fullSystem.acceleration (-1) (Particle.new ((0 : ℚ), (0 : ℚ)) ((10 : ℚ), (10 : ℚ)))).age
        = (Particle.new ((0 : ℚ), (0 : ℚ)) ((10 : ℚ), (10 : ℚ))).age + (-1) ∧
    (Particle.step fullSystem.acceleration (-1) (Particle.new ((0 : ℚ), (0 : ℚ)) ((10 : ℚ), (10 : ℚ)))).age
        < (Particle.new ((0 : ℚ), (0 : ℚ)) ((10 : ℚ), (10 : ℚ))).age :=
  update_accepts_negative_dt fullSystem (-1) _ (by norm_num) (by decide)
    (WithTop.coe_lt_top _)

/-- A system with a finite lifetime of 2 seconds. -/
def mortalSystem : ParticleSystem :=
  { particles := [Particle.new ((0 : ℚ), (0 : ℚ)) ((10 : ℚ), (10 : ℚ))]
    max_particles := 1
    max_life := ((2 : ℚ) : WithTop ℚ)
    acceleration := ((0 : ℚ), (0 : ℚ)) }

/-- C2 witness: the membership characterization instantiated on a concrete
finite-lifetime system, time step `1`, and the stepped particle. -/
theorem update_evicts_expired_witness :
    Particle.step mortalSystem.acceleration 1 (Particle.new ((0 : ℚ), (0 : ℚ)) ((10 : ℚ), (10 : ℚ)))
        ∈ (mortalSystem.update 1).particles ↔
      (Particle.step mortalSystem.acceleration 1 (Particle.new ((0 : ℚ), (0 : ℚ)) ((10 : ℚ), (10 : ℚ)))
          ∈ mortalSystem.particles.map (Particle.step mortalSystem.acceleration 1) ∧
        ((Particle.step mortalSystem.acceleration 1
            (Particle.new ((0 : ℚ), (0 : ℚ)) ((10 : ℚ), (10 : ℚ)))).age : WithTop ℚ)
          < mortalSystem.max_life) :=
  (update_evicts_expired mortalSystem 1).2 _

/-- `update` leaves the acceleration field unchanged. -/
lemma update_acceleration (s : ParticleSystem) (dt : ℚ) :
    (s.update dt).acceleration = s.acceleration := rfl

/-- Every particle present after a sequence of updates descends from a
particle of the starting pool, with age increased by the total elapsed time
and velocity increased by `total • acceleration`. -/
lemma runUpdates_mem (dts : List ℚ) :
    ∀ (s : ParticleSystem), ∀ q ∈ (s.runUpdates dts).particles,
      ∃ p ∈ s.particles,
        q.age = p.age + dts.sum ∧ q.vel = p.vel + dts.sum • s.acceleration := by
  induction dts with
  | nil =>
    intro s q hq
    exact ⟨q, hq, by simp, by simp⟩
  | cons d rest ih =>
    intro s q hq
    obtain ⟨q₁, hq₁, hage, hvel⟩ := ih (s.update d) q hq
    rw [update_acceleration] at hvel
    simp only [ParticleSystem.update] at hq₁
    obtain ⟨p, hp, hstep⟩ := List.mem_map.mp (List.mem_filter.mp hq₁).1
    refine ⟨p, hp, ?_, ?_⟩
    · rw [hage, ← hstep]
      simp only [Particle.step, List.sum_cons]
      ring
    · rw [hvel, ← hstep]
      simp only [Particle.step, List.sum_cons]
      rw [add_smul, add_assoc]

/-- C3: one `update(dt)` step first updates the velocity by `dt • acceleration`
and then moves the position by `dt` times the **updated** velocity and bumps
the age by `dt`; consequently a particle surviving a sequence of updates with
total time `T = dts.sum` has `age = age₀ + T` and
`vel = vel₀ + T • acceleration`, and an emitted particle starts with
`age₀ = 0`, so its age equals `T` (exact rational arithmetic). -/
theorem update_kinematics :
    (∀ (acc : Vector2) (dt : ℚ) (p : Particle),
        Particle.step acc dt p =
          { pos := p.pos + dt • (p.vel + dt • acc),
            vel := p.vel + dt • acc,
            age := p.age + dt }) ∧
    (∀ (pos : Point2) (vel : Vector2), (Particle.new pos vel).age = 0) ∧
    (∀ (s : ParticleSystem) (dts : List ℚ), ∀ q ∈ (s.runUpdates dts).particles,
        ∃ p ∈ s.particles,
          q.age = p.age + dts.sum ∧ q.vel = p.vel + dts.sum • s.acceleration) := by
  refine ⟨fun acc dt p => rfl, fun pos vel => rfl, ?_⟩
  intro s dts
  exact runUpdates_mem dts s

/-- C3 witness: after updates of `1` and `2` seconds on a concrete system with
acceleration `(0, -1)`, the surviving particle `⟨(10,7),(3,1),3⟩` descends from
the initial particle with `age = 0 + 3` and `vel = (3,4) + 3 • (0,-1)`. -/
theorem update_kinematics_witness :
    ∃ p ∈ infSystem.particles,
      ({ pos := ((10 : ℚ), (7 : ℚ)), vel := ((3 : ℚ), (1 : ℚ)), age := 3 } : Particle).age
          = p.age + ([(1 : ℚ), 2]).sum ∧
      ({ pos := ((10 : ℚ), (7 : ℚ)), vel := ((3 : ℚ), (1 : ℚ)), age := 3 } : Particle).vel
          = p.vel + ([(1 : ℚ), 2]).sum • infSystem.acceleration := by
  apply update_kinematics.2.2 infSystem [1, 2]
  have h : (infSystem.runUpdates [(1 : ℚ), 2]).particles
      = [{ pos := ((10 : ℚ), (7 : ℚ)), vel := ((3 : ℚ), (1 : ℚ)), age := 3 }] := by
    show ((infSystem.update 1).update 2).particles = _
    rw [update_particles_of_top _ 2 rfl, update_particles_of_top _ 1 rfl]
    simp only [update_acceleration, infSystem, Particle.step, Particle.new, List.map_cons,
      List.map_nil, Prod.smul_mk, smul_eq_mul, Prod.mk_add_mk]
    norm_num
  rw [h]
  exact List.mem_singleton.mpr rfl

/-- Neither `emit` nor `update` changes `max_particles`. -/
lemma apply_max_particles (s : ParticleSystem) (o : SysOp) :
    (SysOp.apply s o).max_particles = s.max_particles := by
  cases o with
  | emit =>
    simp only [SysOp.apply, ParticleSystem.emit, ParticleSystem.add_particle]
    split <;> rfl
  | update dt => rfl

/-- One operation preserves the bound `len ≤ max_particles + 1`. -/
lemma apply_bound (s : ParticleSystem) (o : SysOp)
    (h : s.particles.length ≤ s.max_particles + 1) :
    (SysOp.apply s o).particles.length ≤ (SysOp.apply s o).max_particles + 1 := by
  rw [apply_max_particles]
  cases o with
  | emit =>
    simp only [SysOp.apply, ParticleSystem.emit, ParticleSystem.add_particle]
    split
    next hle => simpa using Nat.succ_le_succ hle
    next => exact h
  | update dt =>
    simp only [SysOp.apply, ParticleSystem.update]
    refine le_trans (List.length_filter_le _ _) ?_
    rw [List.length_map]
    exact h

/-- The bound `len ≤ max_particles + 1` is preserved along any op sequence. -/
lemma run_bound (ops : List SysOp) :
    ∀ s : ParticleSystem, s.particles.length ≤ s.max_particles + 1 →
      (s.run ops).particles.length ≤ (s.run ops).max_particles + 1 := by
  induction ops with
  | nil => intro s h; exact h
  | cons o rest ih => intro s h; exact ih (SysOp.apply s o) (apply_bound s o h)

/-- C1: `add_particle` admits a particle only while `len ≤ max_particles` (an
over-capacity add is the identity, an in-capacity add appends); consequently,
for every particle system whose pool respects `len ≤ max_particles + 1`, the
bound is preserved along any sequence of `emit`/`update` operations — in
particular for every system built with arbitrary builder configuration
(`count n`, any lifetime, any acceleration), including `count = 1`. -/
theorem pool_capacity_bound :
    (∀ (s : ParticleSystem) (p : Particle),
        s.max_particles < s.particles.length → s.add_particle p = s) ∧
    (∀ (s : ParticleSystem) (p : Particle),
        s.particles.length ≤ s.max_particles →
          (s.add_particle p).particles = s.particles ++ [p]) ∧
    (∀ s : ParticleSystem, s.particles.length ≤ s.max_particles + 1 →
        ∀ ops : List SysOp,
          (s.run ops).particles.length ≤ (s.run ops).max_particles + 1) ∧
    (∀ (n : Nat) (t : WithTop ℚ) (a : Vector2) (ops : List SysOp),
        (((((ParticleSystemBuilder.new.count n).lifetime t).acceleration a).build).run
            ops).particles.length ≤
          (((((ParticleSystemBuilder.new.count n).lifetime t).acceleration a).build).run
              ops).max_particles + 1) := by
  refine ⟨?_, ?_, ?_, ?_⟩
  · intro s p h
    unfold ParticleSystem.add_particle
    rw [if_neg (Nat.not_le.mpr h)]
  · intro s p h
    unfold ParticleSystem.add_particle
    rw [if_pos h]
  · intro s h ops
    exact run_bound ops s h
  · intro n t a ops
    exact run_bound ops _ (Nat.zero_le _)

/-- C1 witness: an over-capacity add on a concrete full system is the
identity; an in-capacity add on the fresh system appends the particle; and
a concrete capacity-1 system running two emits and an update stays within
`max_particles + 1`. -/
theorem pool_capacity_bound_witness :
    fullSystem.add_particle (Particle.new ((0 : ℚ), (0 : ℚ)) ((10 : ℚ), (10 : ℚ))) = fullSystem ∧
    (ParticleSystem.new.add_particle
        (Particle.new ((0 : ℚ), (0 : ℚ)) ((10 : ℚ), (10 : ℚ)))).particles
      = ParticleSystem.new.particles ++ [Particle.new ((0 : ℚ), (0 : ℚ)) ((10 : ℚ), (10 : ℚ))] ∧
    (mortalSystem.run [SysOp.emit, SysOp.emit, SysOp.update 1]).particles.length ≤
      (mortalSystem.run [SysOp.emit, SysOp.emit, SysOp.update 1]).max_particles + 1 :=
  ⟨pool_capacity_bound.1 fullSystem _ (by decide),
   pool_capacity_bound.2.1 ParticleSystem.new _ (by decide),
   pool_capacity_bound.2.2.1 mortalSystem (by decide) [SysOp.emit, SysOp.emit, SysOp.update 1]⟩
